import Mathlib

/-!
Verification of the package-selection and relocation-fixing core of
`venvjail.py` (SUSE-Cloud/venvjail).

The Python source is shallowly embedded: file contents are lists of
characters, the filesystem is a finite map from path strings to entries,
regular expressions are an inductive syntax with a Brzozowski-derivative
matcher (`pmatch` embeds Python `re.match`, which anchors at the start of
the string; `rsearch` embeds `re.search`; `fullmatch` embeds a whole-string
match).  `re.sub` calls are embedded per call site: all patterns the source
passes to `re.sub` are newline-free, so a substitution over the whole file
equals a substitution applied to every newline-separated segment.
-/

set_option maxRecDepth 100000
set_option maxHeartbeats 2000000

namespace Venvjail

/-! ## Character and string list utilities -/

/-- Characters treated as whitespace by Python `str.strip()`. -/
def pyIsSpace (c : Char) : Bool :=
  c = ' ' || c = '\t' || c = '\n' || c = '\r' || c = Char.ofNat 11 || c = Char.ofNat 12

/-- Python `str.strip()`: drop leading and trailing whitespace. -/
def pstrip (l : List Char) : List Char :=
  ((l.dropWhile pyIsSpace).reverse.dropWhile pyIsSpace).reverse

/-- Content of the first line of a file, i.e. Python `readline()` up to
(and excluding) the first newline.  The source always strips the result,
and `strip` removes the trailing newline, so excluding it here is harmless. -/
def firstLine (l : List Char) : List Char :=
  l.takeWhile (fun c => c != '\n')

/-- Boolean test that `n` is a prefix of `l`. -/
def isPre : List Char → List Char → Bool
  | [], _ => true
  | _ :: _, [] => false
  | a :: as, b :: bs => a = b && isPre as bs

/-- Boolean test that `n` occurs as a contiguous sub-list of `l`
(Python `n in l` on strings). -/
def isInf (n : List Char) : List Char → Bool
  | [] => isPre n []
  | c :: cs => isPre n (c :: cs) || isInf n cs

/-- Python `needle in hay` for strings. -/
def substr (needle hay : String) : Bool :=
  isInf needle.data hay.data

/-! ## Splitting file content at newlines

Every pattern the source hands to `re.sub` is newline-free (`.` does not
match `\n` in Python), so a substitution over the whole file content equals
the substitution applied to each of the newline-separated segments.
`splitNl` yields those segments (one more segment than there are newlines);
`joinNl` restores the content. -/

/-- Segments of a character list between newlines. -/
def splitNl : List Char → List (List Char)
  | [] => [[]]
  | c :: cs =>
    match splitNl cs with
    | [] => [[]]
    | s :: ss => if c = '\n' then [] :: s :: ss else (c :: s) :: ss

/-- Rejoin newline-separated segments. -/
def joinNl : List (List Char) → List Char
  | [] => []
  | [s] => s
  | s :: ss => s ++ '\n' :: joinNl ss

/-- Split at the first occurrence of `needle`, returning the part before it
and the part after it, or `none` when `needle` does not occur. -/
def breakOn (needle : List Char) : List Char → Option (List Char × List Char)
  | [] => if isPre needle [] then some ([], []) else none
  | c :: cs =>
    if isPre needle (c :: cs) then some ([], List.drop needle.length (c :: cs))
    else
      match breakOn needle cs with
      | none => none
      | some (p, q) => some (c :: p, q)

/-- Index of the last occurrence of a character. -/
def lastIdxOf (c : Char) : List Char → Option Nat
  | [] => none
  | a :: as =>
    match lastIdxOf c as with
    | some k => some (k + 1)
    | none => if a = c then some 0 else none

/-! ## Path joining

`os.path.join` (posixpath) on two components: an absolute second component
discards the first. -/

/-- Python `s.startswith('/')`. -/
def startsSlash (s : String) : Bool :=
  match s.data with
  | [] => false
  | c :: _ => c = '/'

/-- Python `s.endswith('/')`. -/
def endsSlash (s : String) : Bool :=
  match s.data.getLast? with
  | some c => c = '/'
  | none => false

/-- Source `os.path.join(a, b)` (posixpath, two arguments). -/
def pjoin (a b : String) : String :=
  if startsSlash b then b
  else if a = "" || endsSlash a then a ++ b
  else a ++ "/" ++ b

/-- Source `_fix_virtualenv`: the future environment path
`os.path.join(relocated, dest_dir)` handed to all later stages. -/
def virtualEnvOf (relocated dest_dir : String) : String :=
  pjoin relocated dest_dir

/-! ## Literal text substitution

`rsub` is the behaviour of a substitution whose pattern is plain literal
text.  It is not itself the embedding of any `re.sub` call site; it is the
normal form that the regex substitution `reSub` below provably takes when
the compiled pattern is a concatenation of literal characters (see
`reSubAux_lit`), and the vehicle for the literal-pattern lemmas.  The
recursion is driven by a fuel argument (the length of the text), which
keeps the definition structural and kernel-computable. -/

/-- Replace leftmost non-overlapping occurrences of `needle` by `repl`.
With an empty needle the text is returned unchanged. -/
def rsubAux (needle repl : List Char) : Nat → List Char → List Char
  | _, [] => []
  | 0, hay => hay
  | fuel + 1, c :: cs =>
    if !needle.isEmpty && isPre needle (c :: cs) then
      repl ++ rsubAux needle repl fuel (List.drop (needle.length - 1) cs)
    else
      c :: rsubAux needle repl fuel cs

/-- Literal-text substitution over a whole content. -/
def rsub (needle repl hay : List Char) : List Char :=
  rsubAux needle repl hay.length hay

/-! ## Regular expressions

Python's compiled patterns are embedded as an inductive regex syntax with a
Brzozowski-derivative matcher.  `pmatch` is the boolean content of
`re.match` (success iff some prefix of the string, starting at position 0,
is in the pattern's language), `rsearch` of `re.search` (success iff a
match starts at any position), and `fullmatch` of a whole-string match.
The `dot` constructor does not match a newline, as in Python without
`re.DOTALL`. -/

inductive Regex where
  | emp : Regex
  | eps : Regex
  | char : Char → Regex
  | dot : Regex
  | cat : Regex → Regex → Regex
  | alt : Regex → Regex → Regex
  | star : Regex → Regex
deriving DecidableEq

/-- Does the regex accept the empty string? -/
def nullable : Regex → Bool
  | .emp => false
  | .eps => true
  | .char _ => false
  | .dot => false
  | .cat r s => nullable r && nullable s
  | .alt r s => nullable r || nullable s
  | .star _ => true

/-- Brzozowski derivative of a regex by one character. -/
def deriv : Regex → Char → Regex
  | .emp, _ => .emp
  | .eps, _ => .emp
  | .char c, a => if a = c then .eps else .emp
  | .dot, a => if a = '\n' then .emp else .eps
  | .cat r s, a =>
    if nullable r then .alt (.cat (deriv r a) s) (deriv s a) else .cat (deriv r a) s
  | .alt r s, a => .alt (deriv r a) (deriv s a)
  | .star r, a => .cat (deriv r a) (.star r)

/-- Whole-string acceptance. -/
def fullmatch (r : Regex) (l : List Char) : Bool :=
  nullable (l.foldl deriv r)

/-- Boolean content of Python `re.match`: some prefix of `l`, anchored at
the start, is accepted. -/
def pmatch : Regex → List Char → Bool
  | r, [] => nullable r
  | r, c :: cs => nullable r || pmatch (deriv r c) cs

/-- Boolean content of Python `re.search`: a match may start anywhere. -/
def rsearch : Regex → List Char → Bool
  | r, [] => nullable r
  | r, c :: cs => pmatch r (c :: cs) || rsearch r cs

/-! ## Compiling a pattern string (`re.compile` inside `re.sub`)

`_fix_relocation` hands the stripped first line of a file to `re.sub` as a
pattern string, so the embedding needs `re.compile` on data-dependent text.
`reParse` parses the constructs such a line can use: literal characters
(including `]` and `}`, which Python treats as literals outside a class),
`.`, the greedy postfix repetitions `*`, `+`, `?` (a second repetition
character after one of these is Python's `multiple repeat` error, and a
lazy `*?` is outside the subset), alternation `|`, plain groups `(...)`,
and backslash escapes (an escaped non-alphanumeric character is that
literal character; `\n`, `\t`, `\r`, `\f`, `\v`, `\a` are the control
characters).  Constructs outside this subset — character classes, counted
repetitions `{m,n}`, anchors `^`/`$`, extension groups `(?...)`, and
alphanumeric escapes such as `\d` or back-references — are not modelled and
are mapped to the error result, like Python's `re.error` for genuinely
malformed patterns (both are swallowed by the caller, see
`_fix_relocation_file`).  Every theorem below stays inside the subset. -/

/-- Characters that are regex metacharacters when standing alone (a lone
`]` or `}` is literal in Python and is deliberately not in this list). -/
def reMeta : List Char :=
  "()[.*+?|\\^$\x7b".data

/-- Text free of regex metacharacters: Python compiles it to the literal
concatenation of its characters. -/
def metaFree (l : List Char) : Bool :=
  l.all (fun c => !reMeta.contains c)

/-- Backslash escapes: an escaped non-alphanumeric character is that
character; the defined control-character escapes are translated; other
alphanumeric escapes are outside the modelled subset. -/
def escChar (e : Char) : Option Char :=
  if e.isAlphanum then
    if e = 'n' then some '\n'
    else if e = 't' then some '\t'
    else if e = 'r' then some '\r'
    else if e = 'f' then some (Char.ofNat 12)
    else if e = 'v' then some (Char.ofNat 11)
    else if e = 'a' then some (Char.ofNat 7)
    else none
  else some e

/-- Grammar level being parsed: alternation, sequence, repetition, atom. -/
inductive PMode where
  | alt : PMode
  | seq : PMode
  | rep : PMode
  | atom : PMode

/-- Is the character a postfix repetition operator? -/
def isRepHead (c : Char) : Bool :=
  c = '*' || c = '+' || c = '?'

/-- Recursive-descent parser for the pattern subset; returns the parsed
regex and the unconsumed rest.  Fuel makes the recursion structural; each
step either consumes input or moves one grammar level down, so the fuel
chosen by `pyCompile` is never exhausted. -/
def reParse : Nat → PMode → List Char → Option (Regex × List Char)
  | 0, _, _ => none
  | fuel + 1, PMode.alt, s =>
    match reParse fuel PMode.seq s with
    | none => none
    | some (r1, rest) =>
      match rest with
      | '|' :: rest2 =>
        match reParse fuel PMode.alt rest2 with
        | none => none
        | some (r2, rest3) => some (Regex.alt r1 r2, rest3)
      | _ => some (r1, rest)
  | fuel + 1, PMode.seq, s =>
    match s with
    | [] => some (Regex.eps, [])
    | c :: _ =>
      if c = '|' || c = ')' then some (Regex.eps, s)
      else
        match reParse fuel PMode.rep s with
        | none => none
        | some (r1, rest) =>
          match reParse fuel PMode.seq rest with
          | none => none
          | some (r2, rest2) => some (Regex.cat r1 r2, rest2)
  | fuel + 1, PMode.rep, s =>
    match reParse fuel PMode.atom s with
    | none => none
    | some (r, rest) =>
      match rest with
      | '*' :: rest2 =>
        match rest2 with
        | c2 :: _ => if isRepHead c2 then none else some (Regex.star r, rest2)
        | [] => some (Regex.star r, rest2)
      | '+' :: rest2 =>
        match rest2 with
        | c2 :: _ => if isRepHead c2 then none else some (Regex.cat r (Regex.star r), rest2)
        | [] => some (Regex.cat r (Regex.star r), rest2)
      | '?' :: rest2 =>
        match rest2 with
        | c2 :: _ => if isRepHead c2 then none else some (Regex.alt r Regex.eps, rest2)
        | [] => some (Regex.alt r Regex.eps, rest2)
      | _ => some (r, rest)
  | fuel + 1, PMode.atom, s =>
    match s with
    | [] => none
    | '(' :: rest =>
      match rest with
      | '?' :: _ => none
      | _ =>
        match reParse fuel PMode.alt rest with
        | none => none
        | some (r, rest2) =>
          match rest2 with
          | ')' :: rest3 => some (r, rest3)
          | _ => none
    | '.' :: rest => some (Regex.dot, rest)
    | '\\' :: rest =>
      match rest with
      | [] => none
      | e :: rest2 =>
        match escChar e with
        | none => none
        | some c => some (Regex.char c, rest2)
    | c :: rest =>
      if reMeta.contains c then none else some (Regex.char c, rest)

/-- Python `re.compile` on a pattern string, for the modelled subset:
`none` is the (swallowed) `re.error` or an out-of-subset construct. -/
def pyCompile (l : List Char) : Option Regex :=
  match reParse (4 * l.length + 8) PMode.alt l with
  | some (r, []) => some r
  | _ => none

/-- The regex denoting a piece of literal text. -/
def litRe (l : List Char) : Regex :=
  l.foldr (fun c r => Regex.cat (Regex.char c) r) Regex.eps

/-! ## Backtracking matcher and substitution (`re.sub`)

Python's engine finds, at a given position, the first match in backtracking
order: alternation tries its left branch first and `*` is greedy (iterate
first, with the engine's rule that a zero-width iteration stops the loop).
`pmGo` implements exactly that search in continuation-passing style; `next`
is invoked for the next star iteration with strictly shorter input, so
`pmEnd`'s fuel of `length + 1` can never run out. -/

/-- One fuel level of the backtracking matcher.  The continuation receives
the input remaining after the candidate match and may reject it, forcing
backtracking. -/
def pmGo (next : Regex → List Char → (List Char → Option (List Char)) → Option (List Char)) :
    Regex → List Char → (List Char → Option (List Char)) → Option (List Char)
  | .emp, _, _ => none
  | .eps, s, k => k s
  | .char c, s, k =>
    match s with
    | [] => none
    | a :: rest => if a = c then k rest else none
  | .dot, s, k =>
    match s with
    | [] => none
    | a :: rest => if a = '\n' then none else k rest
  | .cat r1 r2, s, k => pmGo next r1 s (fun s' => pmGo next r2 s' k)
  | .alt r1 r2, s, k =>
    (pmGo next r1 s k).orElse (fun _ => pmGo next r2 s k)
  | .star r, s, k =>
    (pmGo next r s (fun s' =>
      if s'.length < s.length then next (Regex.star r) s' k else none)).orElse
      (fun _ => k s)

/-- Backtracking search for a match of `r` at the start of `s`: returns the
rest of the input after the first match in Python's backtracking order. -/
def pmEnd : Nat → Regex → List Char → (List Char → Option (List Char)) → Option (List Char)
  | 0, _, _, _ => none
  | fuel + 1, r, s, k => pmGo (pmEnd fuel) r s k

/-- Scan of `re.sub`: at each position try a match; a non-empty match is
replaced and the scan continues after it, otherwise the character is kept.
A zero-width match stops iterating at that position (the source's patterns
start with the literal `#!` and can never match the empty string). -/
def reSubAux (r : Regex) (repl : List Char) : Nat → List Char → List Char
  | _, [] => []
  | 0, s => s
  | fuel + 1, c :: cs =>
    match pmEnd ((c :: cs).length + 1) r (c :: cs) some with
    | some rest =>
      if rest.length < (c :: cs).length then repl ++ reSubAux r repl fuel rest
      else c :: reSubAux r repl fuel cs
    | none => c :: reSubAux r repl fuel cs

/-- Python `re.sub(r, repl, s)` for a compiled pattern of the subset, with
a replacement that contains no backslash (the shebang replacement is a
plain path). -/
def reSub (r : Regex) (repl s : List Char) : List Char :=
  reSubAux r repl s.length s

/-! ## Stage 1: `_fix_filesystem` (permission normalisation) -/

/-- Source `dirs` table of `_fix_filesystem` (insertion order). -/
def dirs : List (String × Nat) :=
  [("etc", 0o755), ("etc/cron.daily", 0o755), ("etc/logrotate.d", 0o755),
   ("etc/modprobe.d", 0o755), ("etc/sudoers.d", 0o750), ("srv", 0o755),
   ("srv/www", 0o755), ("usr", 0o755), ("usr/share", 0o755), ("var", 0o755),
   ("var/cache", 0o755), ("var/lib", 0o755), ("var/log", 0o755)]

/-- The table with each path joined under the destination directory, as in
the loop body `dir_ = os.path.join(dest_dir, dir_)`. -/
def chmodList (dest_dir : String) : List (String × Nat) :=
  dirs.map (fun e => (pjoin dest_dir e.1, e.2))

/-- Source `_fix_filesystem` as a transform of the mode map: for each table
entry in order, if the joined path is a present directory, set its mode. -/
def _fix_filesystem (dest_dir : String) (isdir : String → Bool) (mode : String → Nat) :
    String → Nat :=
  (chmodList dest_dir).foldl
    (fun m e => fun q => if q = e.1 ∧ isdir e.1 = true then e.2 else m q) mode

/-! ## Stage 2: `_fix_alternatives` (alternatives symlink retargeting)

The filesystem is a map from path to entry; `os.path.exists` is embedded as
presence of an entry (the build-time tree's sibling links are ordinary
existing files or links). -/

inductive Entry where
  | symlink : String → Entry
  | file : Entry
deriving DecidableEq

/-- Point update of the path map. -/
def updFS (fs : String → Option Entry) (k : String) (v : Option Entry) :
    String → Option Entry :=
  fun q => if q = k then v else fs q

/-- Source `_fix_alternatives`, body of the walk for one `(dirpath, name)`:
a symlink whose target mentions `alternatives` is re-pointed at the
relocated `-2.7` sibling when that sibling exists; otherwise a diagnostic
is emitted (second component `true`) and nothing changes. -/
def _fix_alternatives_link (relocated dirpath name : String)
    (fs : String → Option Entry) : (String → Option Entry) × Bool :=
  let rel_name := pjoin dirpath name
  match fs rel_name with
  | some (Entry.symlink target) =>
    if substr "alternatives" target then
      let alt_name := pjoin (pjoin relocated dirpath) (name ++ "-2.7")
      let alt_rel_name := rel_name ++ "-2.7"
      if (fs alt_rel_name).isSome then
        (updFS fs rel_name (some (Entry.symlink alt_name)), false)
      else (fs, true)
    else (fs, false)
  | _ => (fs, false)

/-! ## Stage 3: `_fix_relocation` (shebang rewriting) -/

/-- Source shebang string `'#!' + os.path.join(virtual_env, 'bin', 'python2')`. -/
def shebangOf (virtual_env : String) : String :=
  "#!" ++ pjoin (pjoin virtual_env "bin") "python2"

/-- Source `_fix_relocation`, body for one regular file: if the stripped
first line starts with `#!` and mentions `python`, run `_replace` over the
whole content — `re.sub` with that line compiled as the pattern and the new
shebang as the replacement.  A pattern that fails to compile raises
`re.error` inside `_replace`, which the bare `except Exception: pass` of
`_fix_relocation` swallows, leaving the file unchanged. -/
def _fix_relocation_file (virtual_env : String) (c : List Char) : List Char :=
  let line := pstrip (firstLine c)
  if isPre "#!".data line && isInf "python".data line then
    match pyCompile line with
    | some r => reSub r (shebangOf virtual_env).data c
    | none => c
  else c

/-! ## Stage 4: `_fix_activators` (activation script rewriting)

The `re.sub` patterns here have the shape `A.*"` with `A` a literal ending
in a double quote (for example `VIRTUAL_ENV=".*"`).  On a newline-free
segment the leftmost match starts at the first occurrence of `A` and the
greedy `.*` extends to the last quote of the segment; when the segment has
no quote after `A`, no occurrence of the pattern exists at all (a later
occurrence of `A` would itself place a quote after the first one). -/

/-- One newline-free segment under `re.sub` with pattern `A.*"`. -/
def quoteSubAux (A repl : List Char) : Nat → List Char → List Char
  | 0, seg => seg
  | fuel + 1, seg =>
    match breakOn A seg with
    | none => seg
    | some (p, q) =>
      match lastIdxOf '"' q with
      | none => seg
      | some k => p ++ repl ++ quoteSubAux A repl fuel (List.drop (k + 1) q)

/-- Segment substitution with enough fuel for the whole segment. -/
def quoteSub (A repl seg : List Char) : List Char :=
  quoteSubAux A repl seg.length seg

/-- Source `_replace` at the activator call sites: pattern `A.*"` over the
whole content (applied per newline-separated segment). -/
def _replace_env (A repl : List Char) (c : List Char) : List Char :=
  joinNl ((splitNl c).map (quoteSub A repl))

/-- Source `_insert`: find the line reading exactly `after` (Python looks
up `after + '\n'` in `readlines()`, hence only among newline-terminated
lines, which are all segments except the last) and insert `line` after it;
a missing anchor is the uncaught `ValueError`, embedded as `none`. -/
def _insert (c : List Char) (after line : List Char) : Option (List Char) :=
  let segs := splitNl c
  match List.findIdx? (fun s => s == after) segs.dropLast with
  | none => none
  | some i => some (joinNl (segs.insertIdx (i + 1) line))

/-- Replace/insert configuration of one activator script. -/
structure Activator where
  replace_head : String
  replace_line : String
  insert_after : String
  insert_line : String

/-- Source `activators['activate']`, pattern `VIRTUAL_ENV=".*"` decomposed
into its literal head and the trailing `.*"`. -/
def activate_action (virtual_env : String) : Activator :=
  { replace_head := "VIRTUAL_ENV=\""
    replace_line := "VIRTUAL_ENV=\"" ++ virtual_env ++ "\""
    insert_after := "deactivate nondestructive"
    insert_line := "export LD_LIBRARY_PATH=\"" ++ pjoin virtual_env "lib" ++ "\"" }

/-- Source `activators['activate.csh']`. -/
def activate_csh_action (virtual_env : String) : Activator :=
  { replace_head := "setenv VIRTUAL_ENV \""
    replace_line := "setenv VIRTUAL_ENV \"" ++ virtual_env ++ "\""
    insert_after := "deactivate nondestructive"
    insert_line := "setenv LD_LIBRARY_PATH \"" ++ pjoin virtual_env "lib" ++ "\"" }

/-- Source `activators['activate.fish']`. -/
def activate_fish_action (virtual_env : String) : Activator :=
  { replace_head := "set -gx VIRTUAL_ENV \""
    replace_line := "set -gx VIRTUAL_ENV \"" ++ virtual_env ++ "\""
    insert_after := "deactivate nondestructive"
    insert_line := "set -gx LD_LIBRARY_PATH \"" ++ pjoin virtual_env "lib" ++ "\"" }

/-- Source loop body of `_fix_activators` for one script: `_replace` then
`_insert`; a missing anchor aborts. -/
def _fix_activator (act : Activator) (c : List Char) : Option (List Char) :=
  _insert (_replace_env act.replace_head.data act.replace_line.data c)
    act.insert_after.data act.insert_line.data

/-- Source `_fix_activators` over the three scripts, in the dict's
insertion order; the first missing anchor aborts the whole stage. -/
def _fix_activators (virtual_env : String) (a acsh afish : List Char) :
    Option (List Char × List Char × List Char) :=
  match _fix_activator (activate_action virtual_env) a with
  | none => none
  | some a' =>
    match _fix_activator (activate_csh_action virtual_env) acsh with
    | none => none
    | some b' =>
      match _fix_activator (activate_fish_action virtual_env) afish with
      | none => none
      | some c' => some (a', b', c')

/-! ## Stage 5: `_fix_systemd_services` (service-unit rewriting)

The patterns `ExecStart=(.*)` and `ExecStartPre=-(.*)` match at the first
occurrence of their literal head in a newline-free segment; the greedy
group captures the entire remainder of the segment and the replacement
re-emits head, `virtual_env`, group. -/

/-- One newline-free segment under `re.sub(head ++ '(.*)', head ++ venv ++ '\1')`. -/
def execSubSeg (head ins seg : List Char) : List Char :=
  match breakOn head seg with
  | none => seg
  | some (p, q) => p ++ head ++ ins ++ q

/-- Source `_replace` at the service call sites, over the whole content. -/
def _replace_exec (head ins : List Char) (c : List Char) : List Char :=
  joinNl ((splitNl c).map (execSubSeg head ins))

/-- A service unit file: basename, mode and content. -/
structure SvcFile where
  name : String
  mode : Nat
  content : List Char

/-- Source loop body of `_fix_systemd_services` for one `*.service` file:
chmod to `0o644`, rewrite `ExecStart=` then `ExecStartPre=-` lines, chmod
to `0o444`, and rename with the `venv-` prefix. -/
def _fix_systemd_service (virtual_env : String) (f : SvcFile) : SvcFile :=
  let c1 := _replace_exec "ExecStart=".data virtual_env.data f.content
  let c2 := _replace_exec "ExecStartPre=-".data virtual_env.data c1
  { name := "venv-" ++ f.name, mode := 0o444, content := c2 }

/-! ## FileList (pattern lists)

Source: class `FileList`.  The constructor reads a file; an `IOError`
degrades to the empty pattern list.  We embed the file's content as
`Option (List String)` (`none` for an unreadable or missing file) and the
opaque `re.compile` as a parameter `compile`. -/

/-- Source `FileList.__init__`: compile every stripped line that is
non-empty and does not start with a `#`; a read error yields `[]`. -/
def FileList.load (compile : String → Regex) : Option (List String) → List Regex
  | none => []
  | some lines =>
    (lines.filter (fun line =>
      !(pstrip line.data).isEmpty && !isPre "#".data (pstrip line.data))).map
      (fun line => compile (String.mk (pstrip line.data)))

/-- Source `FileList.is_populated` (truthiness of the item list). -/
def FileList.is_populated (items : List Regex) : Bool :=
  !items.isEmpty

/-- Source `FileList.contains` / `__contains__`:
`any(i.match(item) for i in self.items)`. -/
def FileList.contains (items : List Regex) (item : String) : Bool :=
  items.any (fun i => pmatch i item.data)

/-- Semantics the spec claims for `matches`: an unanchored search
(`re.search`) by some pattern of the list. -/
def containsSearch (items : List Regex) (item : String) : Bool :=
  items.any (fun i => rsearch i item.data)

/-! ## Package selection

Source: the loop in `create` over the repository's `*.rpm` files. -/

/-- Decision made by one iteration of the selection loop in `create`:
`true` iff the package is installed (appended to `included`). -/
def installDecision (incl excl : List Regex) (rpm : String) : Bool :=
  if FileList.contains excl rpm then false
  else if FileList.is_populated incl && !FileList.contains incl rpm then false
  else true

/-- Source selection loop of `create`, returning the `(included, excluded)`
partition in iteration order. -/
def selectPackages (incl excl : List Regex) : List String → List String × List String
  | [] => ([], [])
  | p :: ps =>
    let r := selectPackages incl excl ps
    if FileList.contains excl p then (r.1, p :: r.2)
    else if FileList.is_populated incl && !FileList.contains incl p then (r.1, p :: r.2)
    else (p :: r.1, r.2)

/-! # Theorems -/

theorem isPre_iff (n l : List Char) : isPre n l = true ↔ n <+: l := by
  induction n generalizing l with
  | nil => simp [isPre]
  | cons a as ih =>
    cases l with
    | nil => simp [isPre]
    | cons b bs =>
      simp only [isPre, Bool.and_eq_true, decide_eq_true_eq, ih]
      constructor
      · rintro ⟨rfl, t, rfl⟩
        exact ⟨t, rfl⟩
      · rintro ⟨t, h⟩
        injection h with h1 h2
        exact ⟨h1, t, h2⟩

theorem isInf_iff (n l : List Char) : isInf n l = true ↔ n <:+: l := by
  induction l with
  | nil => simp [isInf, isPre_iff, List.infix_nil, List.prefix_nil]
  | cons c cs ih =>
    simp [isInf, isPre_iff, ih, List.infix_cons_iff]

theorem pmatch_iff (r : Regex) (l : List Char) :
    pmatch r l = true ↔ ∃ p q, l = p ++ q ∧ fullmatch r p = true := by
  induction l generalizing r with
  | nil =>
    simp only [pmatch]
    constructor
    · intro h
      exact ⟨[], [], rfl, h⟩
    · rintro ⟨p, q, h, hf⟩
      obtain ⟨rfl, rfl⟩ := List.append_eq_nil.mp h.symm
      exact hf
  | cons c cs ih =>
    simp only [pmatch, Bool.or_eq_true, ih]
    constructor
    · rintro (h | ⟨p, q, rfl, hf⟩)
      · exact ⟨[], c :: cs, rfl, h⟩
      · exact ⟨c :: p, q, rfl, hf⟩
    · rintro ⟨p, q, heq, hf⟩
      cases p with
      | nil =>
        left
        simpa [fullmatch] using hf
      | cons c' p' =>
        injection heq with h1 h2
        subst h1
        right
        exact ⟨p', q, h2, hf⟩

theorem selectPackages_eq_filter (incl excl : List Regex) (pkgs : List String) :
    selectPackages incl excl pkgs =
      (pkgs.filter (fun p => installDecision incl excl p),
       pkgs.filter (fun p => !installDecision incl excl p)) := by
  induction pkgs with
  | nil => rfl
  | cons p ps ih =>
    simp only [selectPackages, ih, installDecision, List.filter_cons]
    by_cases h1 : FileList.contains excl p = true
    · simp [h1]
    · simp only [Bool.not_eq_true] at h1
      by_cases h2 : (FileList.is_populated incl && !FileList.contains incl p) = true
      · simp [h1, h2]
      · simp [h1, h2]

/-- C1: the selection loop realises exclude-over-include precedence: an
exclude match always excludes; otherwise a populated include list installs
exactly the include matches; otherwise everything is installed; and every
candidate lands in exactly one of the two result lists. -/
theorem claim1_selection (incl excl : List Regex) (n : String) (pkgs : List String) :
    (FileList.contains excl n = true → installDecision incl excl n = false)
    ∧ (FileList.contains excl n = false → FileList.is_populated incl = true →
        installDecision incl excl n = FileList.contains incl n)
    ∧ (FileList.contains excl n = false → FileList.is_populated incl = false →
        installDecision incl excl n = true)
    ∧ selectPackages incl excl pkgs =
        (pkgs.filter (fun p => installDecision incl excl p),
         pkgs.filter (fun p => !installDecision incl excl p))
    ∧ (n ∈ pkgs → (n ∈ (selectPackages incl excl pkgs).1 ↔ installDecision incl excl n = true))
    ∧ (n ∈ pkgs → (n ∈ (selectPackages incl excl pkgs).2 ↔ installDecision incl excl n = false))
    ∧ ¬(n ∈ (selectPackages incl excl pkgs).1 ∧ n ∈ (selectPackages incl excl pkgs).2) := by
  refine ⟨?_, ?_, ?_, selectPackages_eq_filter incl excl pkgs, ?_, ?_, ?_⟩
  · intro h
    simp [installDecision, h]
  · intro h hpop
    simp only [installDecision, h, if_false, hpop, true_and, Bool.true_and]
    cases hc : FileList.contains incl n <;> simp [hc]
  · intro h hpop
    simp [installDecision, h, hpop]
  · intro hmem
    rw [selectPackages_eq_filter]
    simp [List.mem_filter, hmem]
  · intro hmem
    rw [selectPackages_eq_filter]
    simp [List.mem_filter, hmem]
  · rintro ⟨h1, h2⟩
    rw [selectPackages_eq_filter] at h1 h2
    simp only [List.mem_filter, Bool.not_eq_true'] at h1 h2
    exact absurd h1.2 (by simp [h2.2])

/-- C1 witness: a concrete run of the selection loop with exclude pattern
`.*-devel` modelled at a devel package name. -/
theorem claim1_selection_witness :
    installDecision [] [Regex.char 'a'] "ab" = false
    ∧ (selectPackages [] [Regex.char 'a'] ["ab", "bc"]).1 = ["bc"] := by
  have h := claim1_selection [] [Regex.char 'a'] "ab" ["ab", "bc"]
  refine ⟨h.1 (by decide), ?_⟩
  rw [h.2.2.2.1]
  decide

/-- C6 counterexample: the pattern list `[b]` on the name `ab`.  An
unanchored sub-string search succeeds, but the code's `contains` (which
uses the start-anchored `re.match`) returns false, refuting the claim that
`matches` agrees with unanchored search. -/
theorem claim6_cex :
    containsSearch [Regex.char 'b'] "ab" = true
    ∧ FileList.contains [Regex.char 'b'] "ab" = false := by
  decide

/-- C6 (amended): `contains` is a start-anchored prefix search: it succeeds
iff some pattern of the list accepts a prefix of the name starting at
position 0; the pattern need not cover the whole name, but cannot match
text beginning after the first character. -/
theorem claim6_contains_anchored (L : List Regex) (n : String) :
    FileList.contains L n = true ↔
      ∃ r ∈ L, ∃ p q, n.data = p ++ q ∧ fullmatch r p = true := by
  simp only [FileList.contains, List.any_eq_true, pmatch_iff]

/-- C7: a missing or unreadable pattern file yields an unpopulated list
that matches nothing, and lines that strip to the empty string or to a
`#`-comment are never compiled into patterns. -/
theorem claim7_load (compile : String → Regex) (x : String)
    (pre post : List String) (bad : String)
    (hbad : (pstrip bad.data).isEmpty = true ∨ isPre "#".data (pstrip bad.data) = true) :
    FileList.load compile none = []
    ∧ FileList.is_populated (FileList.load compile none) = false
    ∧ FileList.contains (FileList.load compile none) x = false
    ∧ FileList.load compile (some (pre ++ bad :: post)) =
        FileList.load compile (some (pre ++ post)) := by
  refine ⟨rfl, rfl, rfl, ?_⟩
  simp only [FileList.load, List.filter_append, List.filter_cons]
  have hcond : (!(pstrip bad.data).isEmpty && !isPre "#".data (pstrip bad.data)) = false := by
    rcases hbad with h | h <;> simp [h]
  rw [hcond]
  simp

/-- C7 witness: loading a missing file, and loading a list containing a
comment line and a blank line. -/
theorem claim7_load_witness :
    FileList.load (fun _ => Regex.eps) none = []
    ∧ FileList.load (fun _ => Regex.eps) (some (["a"] ++ "# note" :: ["b"])) =
        FileList.load (fun _ => Regex.eps) (some (["a"] ++ ["b"])) := by
  have h := claim7_load (fun _ => Regex.eps) "x" ["a"] ["b"] "# note"
    (Or.inr (by decide))
  exact ⟨h.1, h.2.2.2⟩

theorem rsubAux_self (n : List Char) (fuel : Nat) (s : List Char) :
    rsubAux n n fuel s = s := by
  induction fuel generalizing s with
  | zero => cases s <;> rfl
  | succ fuel ih =>
    cases s with
    | nil => rfl
    | cons c cs =>
      simp only [rsubAux]
      by_cases hb : (!n.isEmpty && isPre n (c :: cs)) = true
      · rw [if_pos hb, ih]
        obtain ⟨hne, hpre⟩ := Bool.and_eq_true_iff.mp hb
        obtain ⟨t, ht⟩ := (isPre_iff _ _).mp hpre
        cases n with
        | nil => simp at hne
        | cons a as =>
          injection ht with ha ht'
          subst ha
          simp only [List.append_eq] at ht'
          simp only [List.length_cons, Nat.add_sub_cancel]
          rw [← ht', List.drop_left, List.cons_append]
      · rw [if_neg hb, ih]

theorem rsubAux_no_occ (n repl : List Char) (fuel : Nat) (s : List Char)
    (h : ¬ (n <:+: s)) : rsubAux n repl fuel s = s := by
  induction fuel generalizing s with
  | zero => cases s <;> rfl
  | succ fuel ih =>
    cases s with
    | nil => rfl
    | cons c cs =>
      simp only [rsubAux]
      by_cases hb : (!n.isEmpty && isPre n (c :: cs)) = true
      · obtain ⟨t, ht⟩ := (isPre_iff _ _).mp (Bool.and_eq_true_iff.mp hb).2
        exact absurd ⟨[], t, by simpa using ht⟩ h
      · rw [if_neg hb, ih]
        intro hin
        exact h (List.infix_cons_iff.mpr (Or.inr hin))

theorem rsubAux_head (n repl t : List Char) (fuel : Nat) (hne : n ≠ [])
    (h : ¬ (n <:+: t)) : rsubAux n repl (fuel + 1) (n ++ t) = repl ++ t := by
  cases n with
  | nil => exact absurd rfl hne
  | cons a as =>
    show rsubAux (a :: as) repl (fuel + 1) (a :: (as ++ t)) = repl ++ t
    simp only [rsubAux]
    rw [if_pos]
    · simp only [List.length_cons, Nat.add_sub_cancel]
      rw [List.drop_left, rsubAux_no_occ _ _ _ _ h]
    · refine Bool.and_eq_true_iff.mpr ⟨rfl, ?_⟩
      exact (isPre_iff _ _).mpr ⟨t, rfl⟩

theorem rsub_head (n repl t : List Char) (hne : n ≠ [])
    (h : ¬ (n <:+: t)) : rsub n repl (n ++ t) = repl ++ t := by
  cases n with
  | nil => exact absurd rfl hne
  | cons a as =>
    show rsubAux (a :: as) repl ((as ++ t).length + 1) (a :: (as ++ t)) = repl ++ t
    exact rsubAux_head (a :: as) repl t _ hne h

theorem firstLine_append (l r : List Char) (h : '\n' ∉ l) :
    firstLine (l ++ '\n' :: r) = l := by
  induction l with
  | nil => rfl
  | cons c cs ih =>
    have hc : c ≠ '\n' := fun hh => h (by rw [hh]; exact List.mem_cons_self _ _)
    have ih' := ih (fun hm => h (List.mem_cons_of_mem _ hm))
    simp only [firstLine] at ih' ⊢
    simp [List.takeWhile_cons, hc, ih']

theorem pmGo_lit
    (next : Regex → List Char → (List Char → Option (List Char)) → Option (List Char))
    (n : List Char) :
    ∀ (s : List Char) (k : List Char → Option (List Char)),
      pmGo next (litRe n) s k
        = if isPre n s = true then k (List.drop n.length s) else none := by
  induction n with
  | nil =>
    intro s k
    simp [litRe, pmGo, isPre]
  | cons c n' ih =>
    intro s k
    show pmGo next (Regex.cat (Regex.char c) (litRe n')) s k = _
    cases s with
    | nil => simp [pmGo, isPre]
    | cons a rest =>
      simp only [pmGo]
      by_cases hac : a = c
      · rw [if_pos hac, ih rest k]
        subst hac
        simp only [isPre, decide_eq_true_eq, List.length_cons, List.drop_succ_cons]
        by_cases hp : isPre n' rest = true
        · simp [hp]
        · simp [hp]
      · rw [if_neg hac]
        have : isPre (c :: n') (a :: rest) = false := by
          simp only [isPre, Bool.and_eq_false_iff, decide_eq_false_iff_not]
          exact Or.inl (fun hh => hac hh.symm)
        simp [this]

theorem reSubAux_lit (n repl : List Char) (hne : n ≠ []) :
    ∀ (fuel : Nat) (s : List Char),
      reSubAux (litRe n) repl fuel s = rsubAux n repl fuel s := by
  intro fuel
  induction fuel with
  | zero => intro s; cases s <;> rfl
  | succ fuel ih =>
    intro s
    cases s with
    | nil => rfl
    | cons c cs =>
      have hend : pmEnd ((c :: cs).length + 1) (litRe n) (c :: cs) some
          = if isPre n (c :: cs) = true
            then some (List.drop n.length (c :: cs)) else none := by
        rw [show pmEnd ((c :: cs).length + 1) (litRe n) (c :: cs) some
            = pmGo (pmEnd (c :: cs).length) (litRe n) (c :: cs) some from rfl,
          pmGo_lit]
      by_cases hp : isPre n (c :: cs) = true
      · rw [if_pos hp] at hend
        have hlen : (List.drop n.length (c :: cs)).length < (c :: cs).length := by
          rw [List.length_drop]
          cases n with
          | nil => exact absurd rfl hne
          | cons d n'' => simp only [List.length_cons]; omega
        have hcond : (!n.isEmpty && isPre n (c :: cs)) = true := by
          cases n with
          | nil => exact absurd rfl hne
          | cons d n'' => simp [hp]
        simp only [reSubAux, rsubAux, hend]
        rw [if_pos hlen, if_pos hcond]
        have hdrop : List.drop n.length (c :: cs) = List.drop (n.length - 1) cs := by
          cases n with
          | nil => exact absurd rfl hne
          | cons d n'' => simp [List.length_cons]
        rw [hdrop, ih]
      · rw [if_neg hp] at hend
        have hcond : ¬ ((!n.isEmpty && isPre n (c :: cs)) = true) := by
          simp [hp]
        simp only [reSubAux, rsubAux, hend]
        rw [if_neg hcond, ih]

theorem reSub_lit (n repl s : List Char) (hne : n ≠ []) :
    reSub (litRe n) repl s = rsub n repl s :=
  reSubAux_lit n repl hne s.length s

theorem reParse_atom_plain (f : Nat) (c : Char) (rest : List Char)
    (hc : reMeta.contains c = false) :
    reParse (f + 1) PMode.atom (c :: rest) = some (Regex.char c, rest) := by
  have hpar : c ≠ '(' := fun h => by rw [h] at hc; exact absurd hc (by decide)
  have hdot : c ≠ '.' := fun h => by rw [h] at hc; exact absurd hc (by decide)
  have hbsl : c ≠ '\\' := fun h => by rw [h] at hc; exact absurd hc (by decide)
  simp only [reParse]
  rw [if_neg (by rw [hc]; exact Bool.false_ne_true)]

theorem reParse_rep_plain (f : Nat) (c : Char) (rest : List Char)
    (hat : reParse f PMode.atom (c :: rest) = some (Regex.char c, rest))
    (hrest : ∀ d, rest.head? = some d → isRepHead d = false) :
    reParse (f + 1) PMode.rep (c :: rest) = some (Regex.char c, rest) := by
  cases rest with
  | nil => simp only [reParse, hat]
  | cons d rest' =>
    have hd : isRepHead d = false := hrest d rfl
    have hs : d ≠ '*' := fun h => by rw [h] at hd; exact absurd hd (by decide)
    have hp : d ≠ '+' := fun h => by rw [h] at hd; exact absurd hd (by decide)
    have hq : d ≠ '?' := fun h => by rw [h] at hd; exact absurd hd (by decide)
    simp only [reParse, hat]
    split
    · rename_i heq
      injection heq with h1 _
      exact absurd h1 hs
    · rename_i heq
      injection heq with h1 _
      exact absurd h1 hp
    · rename_i heq
      injection heq with h1 _
      exact absurd h1 hq
    · rfl

theorem reParse_seq_nil (f : Nat) :
    reParse (f + 1) PMode.seq [] = some (Regex.eps, []) := by
  simp only [reParse]

theorem reParse_seq_cons (f : Nat) (c : Char) (rest : List Char)
    (hc1 : (c = '|' || c = ')') = false)
    (hrep : reParse f PMode.rep (c :: rest) = some (Regex.char c, rest))
    (hseq : reParse f PMode.seq rest = some (litRe rest, [])) :
    reParse (f + 1) PMode.seq (c :: rest) = some (litRe (c :: rest), []) := by
  simp only [reParse, hrep, hseq]
  rw [if_neg (by rw [hc1]; exact Bool.false_ne_true)]
  rfl

theorem notMeta_of_metaFree (l : List Char) (hm : metaFree l = true) :
    ∀ c ∈ l, reMeta.contains c = false := by
  intro c hc
  have := List.all_eq_true.mp hm c hc
  simpa using this

theorem reParse_seq_lit (l : List Char) (hm : metaFree l = true) :
    ∀ f : Nat, l.length + 2 ≤ f → reParse f PMode.seq l = some (litRe l, []) := by
  induction l with
  | nil =>
    intro f hf
    simp only [List.length_nil] at hf
    obtain ⟨g, rfl⟩ : ∃ g, f = g + 1 := ⟨f - 1, by omega⟩
    exact reParse_seq_nil g
  | cons c rest ih =>
    intro f hf
    simp only [List.length_cons] at hf
    obtain ⟨g, rfl⟩ : ∃ g, f = g + 1 := ⟨f - 1, by omega⟩
    obtain ⟨h, rfl⟩ : ∃ h, g = h + 1 := ⟨g - 1, by omega⟩
    obtain ⟨m, rfl⟩ : ∃ m, h = m + 1 := ⟨h - 1, by omega⟩
    have hc : reMeta.contains c = false :=
      notMeta_of_metaFree _ hm c (List.mem_cons_self _ _)
    have hrest : metaFree rest = true := by
      apply List.all_eq_true.mpr
      intro x hx
      exact List.all_eq_true.mp hm x (List.mem_cons_of_mem _ hx)
    have hc1 : (c = '|' || c = ')') = false := by
      have h1 : c ≠ '|' := fun h => by rw [h] at hc; exact absurd hc (by decide)
      have h2 : c ≠ ')' := fun h => by rw [h] at hc; exact absurd hc (by decide)
      simp [h1, h2]
    have hhead : ∀ d, rest.head? = some d → isRepHead d = false := by
      intro d hd
      have hd2 : reMeta.contains d = false := by
        apply notMeta_of_metaFree _ hrest
        cases rest with
        | nil => cases hd
        | cons e rest' =>
          injection hd with hd'
          exact List.mem_cons.mpr (Or.inl hd'.symm)
      have hs : d ≠ '*' := fun h => by rw [h] at hd2; exact absurd hd2 (by decide)
      have hp : d ≠ '+' := fun h => by rw [h] at hd2; exact absurd hd2 (by decide)
      have hq : d ≠ '?' := fun h => by rw [h] at hd2; exact absurd hd2 (by decide)
      simp [isRepHead, hs, hp, hq]
    exact reParse_seq_cons (m + 1 + 1) c rest hc1
      (reParse_rep_plain (m + 1) c rest (reParse_atom_plain m c rest hc) hhead)
      (ih hrest (m + 1 + 1) (by omega))

theorem reParse_alt_lit (f : Nat) (l : List Char)
    (hseq : reParse f PMode.seq l = some (litRe l, [])) :
    reParse (f + 1) PMode.alt l = some (litRe l, []) := by
  simp only [reParse, hseq]

theorem metaFree_pyCompile (l : List Char) (hm : metaFree l = true) :
    pyCompile l = some (litRe l) := by
  have halt : reParse (4 * l.length + 7 + 1) PMode.alt l = some (litRe l, []) :=
    reParse_alt_lit _ l (reParse_seq_lit l hm _ (by omega))
  show (match reParse (4 * l.length + 8) PMode.alt l with
    | some (r, []) => some r
    | _ => none) = some (litRe l)
  rw [show (4 * l.length + 8) = (4 * l.length + 7 + 1) from rfl, halt]

theorem metaFree_pjoin (a b : String) (ha : metaFree a.data = true)
    (hb : metaFree b.data = true) : metaFree (pjoin a b).data = true := by
  simp only [pjoin]
  split
  · exact hb
  · split
    · rw [String.data_append]
      simp only [metaFree, List.all_append] at ha hb ⊢
      exact Bool.and_eq_true_iff.mpr ⟨ha, hb⟩
    · rw [String.data_append, String.data_append]
      simp only [metaFree, List.all_append] at ha hb ⊢
      refine Bool.and_eq_true_iff.mpr ⟨Bool.and_eq_true_iff.mpr ⟨ha, ?_⟩, hb⟩
      decide

theorem fix_relocation_file_rewrite (virtual_env : String) (line rest : List Char)
    (h1 : isPre "#!".data line = true)
    (h2 : isInf "python".data line = true)
    (h3 : '\n' ∉ line)
    (h4 : pstrip line = line)
    (h5 : ¬ (line <:+: rest))
    (hmeta : metaFree line = true) :
    _fix_relocation_file virtual_env (line ++ '\n' :: rest)
      = (shebangOf virtual_env).data ++ '\n' :: rest := by
  have hcomp : pyCompile line = some (litRe line) := metaFree_pyCompile line hmeta
  have hline : pstrip (firstLine (line ++ '\n' :: rest)) = line := by
    rw [firstLine_append line rest h3, h4]
  have hninf : ¬ (line <:+: ('\n' :: rest)) := by
    intro hin
    rcases List.infix_cons_iff.mp hin with hpre | hinf
    · obtain ⟨t1, ht1⟩ := (isPre_iff _ _).mp h1
      obtain ⟨t2, ht2⟩ := hpre
      rw [← ht1] at ht2
      injection ht2 with hh _
      exact absurd hh (by decide)
    · exact h5 hinf
  have hne : line ≠ [] := by
    intro hnil
    rw [hnil] at h1
    exact absurd h1 (by decide)
  simp only [_fix_relocation_file, hline, h1, h2, Bool.and_self, if_true, hcomp]
  rw [reSub_lit line _ _ hne]
  exact rsub_head line _ ('\n' :: rest) hne hninf

theorem pjoin_absolute (a b : String) (h : startsSlash b = true) : pjoin a b = b := by
  simp [pjoin, h]

theorem string_eq_of_data (a b : String) (h : a.data = b.data) : a = b := by
  cases a; cases b; exact congrArg String.mk h

theorem pjoin_right_inj (a : String) (b₁ b₂ : String)
    (h₁ : startsSlash b₁ = false) (h₂ : startsSlash b₂ = false)
    (h : pjoin a b₁ = pjoin a b₂) : b₁ = b₂ := by
  simp only [pjoin, h₁, h₂, Bool.false_eq_true, if_false] at h
  by_cases ha : (a = "" || endsSlash a) = true
  · rw [if_pos ha, if_pos ha] at h
    have hd := congrArg String.data h
    rw [String.data_append, String.data_append] at hd
    exact string_eq_of_data _ _ (List.append_cancel_left hd)
  · rw [if_neg ha, if_neg ha] at h
    have hd := congrArg String.data h
    rw [String.data_append, String.data_append, String.data_append,
      String.data_append, List.append_assoc, List.append_assoc] at hd
    exact string_eq_of_data _ _ (List.append_cancel_left (List.append_cancel_left hd))

/-- C4 counterexample: the scenario's destination tree `/build/svc-1` is an
absolute path, so `os.path.join('/opt/env', '/build/svc-1')` is
`/build/svc-1` and the rewritten line lacks the `/opt/env` prefix the claim
expects. -/
theorem claim4_cex :
    virtualEnvOf "/opt/env" "/build/svc-1" = "/build/svc-1"
    ∧ (_fix_systemd_service (virtualEnvOf "/opt/env" "/build/svc-1")
        ⟨"myservice.service", 0o444, "ExecStart=/usr/bin/myservice --flag".data⟩).content
      = "ExecStart=/build/svc-1/usr/bin/myservice --flag".data
    ∧ "ExecStart=/build/svc-1/usr/bin/myservice --flag".data
      ≠ "ExecStart=/opt/env/build/svc-1/usr/bin/myservice --flag".data := by
  exact ⟨by decide, by decide, by decide⟩

/-- C4 (amended): with the destination tree given as the relative path
`build/svc-1` (as it is in an OBS build, where `create` receives a relative
directory), the joined future path is `/opt/env/build/svc-1`, the
`ExecStart` line is rewritten exactly as the claim states, and the file is
renamed from `myservice.service` to `venv-myservice.service`. -/
theorem claim4_amended :
    virtualEnvOf "/opt/env" "build/svc-1" = "/opt/env/build/svc-1"
    ∧ (_fix_systemd_service (virtualEnvOf "/opt/env" "build/svc-1")
        ⟨"myservice.service", 0o444, "ExecStart=/usr/bin/myservice --flag".data⟩).content
      = "ExecStart=/opt/env/build/svc-1/usr/bin/myservice --flag".data
    ∧ (_fix_systemd_service (virtualEnvOf "/opt/env" "build/svc-1")
        ⟨"myservice.service", 0o444, "ExecStart=/usr/bin/myservice --flag".data⟩).name
      = "venv-myservice.service" := by
  exact ⟨by decide, by decide, by decide⟩

/-- C10: when the destination directory is absolute, the computed future
environment path equals it and every string the fixer stages write
(shebangs, `VIRTUAL_ENV` and `LD_LIBRARY_PATH` lines, `ExecStart` rewrites)
is independent of the Relocated Path; when the destination is relative, the
Relocated Path is a prefix of the computed path. -/
theorem claim10_absolute_dest (relocated r₁ r₂ dest_dir : String) :
    (startsSlash dest_dir = true →
      virtualEnvOf relocated dest_dir = dest_dir
      ∧ shebangOf (virtualEnvOf r₁ dest_dir) = shebangOf (virtualEnvOf r₂ dest_dir)
      ∧ (∀ c, _fix_relocation_file (virtualEnvOf r₁ dest_dir) c
            = _fix_relocation_file (virtualEnvOf r₂ dest_dir) c)
      ∧ activate_action (virtualEnvOf r₁ dest_dir)
          = activate_action (virtualEnvOf r₂ dest_dir)
      ∧ activate_csh_action (virtualEnvOf r₁ dest_dir)
          = activate_csh_action (virtualEnvOf r₂ dest_dir)
      ∧ activate_fish_action (virtualEnvOf r₁ dest_dir)
          = activate_fish_action (virtualEnvOf r₂ dest_dir)
      ∧ (∀ f, _fix_systemd_service (virtualEnvOf r₁ dest_dir) f
            = _fix_systemd_service (virtualEnvOf r₂ dest_dir) f))
    ∧ (startsSlash dest_dir = false →
        relocated.data <+: (virtualEnvOf relocated dest_dir).data) := by
  constructor
  · intro h
    have key : ∀ r : String, virtualEnvOf r dest_dir = dest_dir := fun r =>
      pjoin_absolute r dest_dir h
    rw [key relocated, key r₁, key r₂]
    exact ⟨rfl, rfl, fun _ => rfl, rfl, rfl, rfl, fun _ => rfl⟩
  · intro h
    simp only [virtualEnvOf, pjoin, h, Bool.false_eq_true, if_false]
    by_cases ha : (relocated = "" || endsSlash relocated) = true
    · rw [if_pos ha, String.data_append]
      exact ⟨dest_dir.data, rfl⟩
    · rw [if_neg ha, String.data_append, String.data_append, List.append_assoc]
      exact ⟨"/".data ++ dest_dir.data, rfl⟩

/-- C10 witness: a concrete absolute and a concrete relative destination. -/
theorem claim10_absolute_dest_witness :
    virtualEnvOf "/opt/stack/venv" "/build/x" = "/build/x"
    ∧ "/opt/stack/venv".data <+: (virtualEnvOf "/opt/stack/venv" "build/x").data := by
  exact ⟨((claim10_absolute_dest "/opt/stack/venv" "/a" "/b" "/build/x").1 (by decide)).1,
    (claim10_absolute_dest "/opt/stack/venv" "/a" "/b" "build/x").2 (by decide)⟩

theorem chmod_foldl_not_mem (isdir : String → Bool) (l : List (String × Nat))
    (mode : String → Nat) (q : String) (h : ∀ e ∈ l, q ≠ e.1) :
    l.foldl (fun m e => fun q' => if q' = e.1 ∧ isdir e.1 = true then e.2 else m q') mode q
      = mode q := by
  induction l generalizing mode with
  | nil => rfl
  | cons e t ih =>
    rw [List.foldl_cons, ih _ (fun e' he' => h e' (List.mem_cons_of_mem _ he'))]
    exact if_neg (fun hc => h e (List.mem_cons_self _ _) hc.1)

theorem chmod_foldl_mem (isdir : String → Bool) (l : List (String × Nat))
    (mode : String → Nat) (k : String) (m : Nat)
    (hmem : (k, m) ∈ l) (hdir : isdir k = true)
    (hnodup : l.Pairwise (fun e₁ e₂ => e₁.1 ≠ e₂.1)) :
    l.foldl (fun m' e => fun q' => if q' = e.1 ∧ isdir e.1 = true then e.2 else m' q') mode k
      = m := by
  induction l generalizing mode with
  | nil => cases hmem
  | cons e t ih =>
    rw [List.foldl_cons]
    rcases List.mem_cons.mp hmem with heq | hmem'
    · cases heq.symm
      have hk : ∀ e' ∈ t, k ≠ e'.1 := (List.pairwise_cons.mp hnodup).1
      rw [chmod_foldl_not_mem isdir t _ k hk]
      simp [hdir]
    · exact ih _ hmem' (List.pairwise_cons.mp hnodup).2

theorem chmodList_pairwise (dest_dir : String) :
    (chmodList dest_dir).Pairwise (fun e₁ e₂ => e₁.1 ≠ e₂.1) := by
  have hbase : dirs.Pairwise (fun e₁ e₂ =>
      e₁.1 ≠ e₂.1 ∧ startsSlash e₁.1 = false ∧ startsSlash e₂.1 = false) := by decide
  rw [chmodList, List.pairwise_map]
  exact hbase.imp (fun h heq => h.1 (pjoin_right_inj dest_dir _ _ h.2.1 h.2.2 heq))

/-- C9: after permission normalisation, a present `etc/sudoers.d` has mode
`0o750` whatever its prior mode, every other present directory of the fixed
table has its tabled mode, and a path outside the table keeps its prior
mode. -/
theorem claim9_permissions (dest_dir : String) (isdir : String → Bool)
    (mode : String → Nat) :
    (isdir (pjoin dest_dir "etc/sudoers.d") = true →
      _fix_filesystem dest_dir isdir mode (pjoin dest_dir "etc/sudoers.d") = 0o750)
    ∧ (∀ d m, (d, m) ∈ dirs → isdir (pjoin dest_dir d) = true →
        _fix_filesystem dest_dir isdir mode (pjoin dest_dir d) = m)
    ∧ (∀ q, (∀ e ∈ dirs, q ≠ pjoin dest_dir e.1) →
        _fix_filesystem dest_dir isdir mode q = mode q) := by
  have hmain : ∀ d m, (d, m) ∈ dirs → isdir (pjoin dest_dir d) = true →
      _fix_filesystem dest_dir isdir mode (pjoin dest_dir d) = m := by
    intro d m hmem hdir
    have hmem' : (pjoin dest_dir d, m) ∈ chmodList dest_dir := by
      rw [chmodList]
      exact List.mem_map.mpr ⟨(d, m), hmem, rfl⟩
    exact chmod_foldl_mem isdir _ mode _ m hmem' hdir (chmodList_pairwise dest_dir)
  refine ⟨fun hdir => hmain _ _ (by decide) hdir, hmain, ?_⟩
  intro q hq
  refine chmod_foldl_not_mem isdir _ mode q ?_
  intro e he
  obtain ⟨e', he', rfl⟩ := List.mem_map.mp he
  exact hq e' he'

/-- C9 witness: a destination with all table directories present; the
sudoers directory gets `0o750` and an untabled path is untouched. -/
theorem claim9_permissions_witness :
    _fix_filesystem "/d" (fun _ => true) (fun _ => 0o700) (pjoin "/d" "etc/sudoers.d") = 0o750
    ∧ _fix_filesystem "/d" (fun _ => true) (fun _ => 0o700) "/d/opt" = 0o700 := by
  refine ⟨(claim9_permissions "/d" (fun _ => true) (fun _ => 0o700)).1 rfl, ?_⟩
  exact (claim9_permissions "/d" (fun _ => true) (fun _ => 0o700)).2.2 "/d/opt" (by decide)

/-- C8: for a symlink whose target mentions `alternatives`, the stage
relinks it to the relocated `-2.7` sibling path when the sibling exists
(touching no other path), and when the sibling is absent it emits a
diagnostic and leaves the map unchanged; either way the walk continues
(the per-link step is a total function). -/
theorem claim8_alternatives (relocated dirpath name target : String)
    (fs : String → Option Entry)
    (hlink : fs (pjoin dirpath name) = some (Entry.symlink target))
    (halt : substr "alternatives" target = true) :
    ((fs (pjoin dirpath name ++ "-2.7")).isSome = true →
      (_fix_alternatives_link relocated dirpath name fs).1 (pjoin dirpath name)
          = some (Entry.symlink (pjoin (pjoin relocated dirpath) (name ++ "-2.7")))
        ∧ (_fix_alternatives_link relocated dirpath name fs).2 = false
        ∧ ∀ q, q ≠ pjoin dirpath name →
            (_fix_alternatives_link relocated dirpath name fs).1 q = fs q)
    ∧ ((fs (pjoin dirpath name ++ "-2.7")).isSome = false →
        (_fix_alternatives_link relocated dirpath name fs).1 = fs
        ∧ (_fix_alternatives_link relocated dirpath name fs).2 = true) := by
  constructor
  · intro hex
    simp only [_fix_alternatives_link, hlink, halt, if_true, hex]
    refine ⟨by simp [updFS], by simp, fun q hq => by simp [updFS, hq]⟩
  · intro hex
    simp [_fix_alternatives_link, hlink, halt, hex]

/-- C8 witness: a link `usr/bin/foo` to `/etc/alternatives/foo` with the
sibling `usr/bin/foo-2.7` present, and a link `usr/bin/bar` without one. -/
theorem claim8_alternatives_witness :
    (_fix_alternatives_link "/opt/env" "usr/bin" "foo"
        (fun q => if q = "usr/bin/foo" then some (Entry.symlink "/etc/alternatives/foo")
          else if q = "usr/bin/foo-2.7" then some Entry.file else none)).1 "usr/bin/foo"
      = some (Entry.symlink "/opt/env/usr/bin/foo-2.7")
    ∧ (_fix_alternatives_link "/opt/env" "usr/bin" "bar"
        (fun q => if q = "usr/bin/bar" then some (Entry.symlink "/etc/alternatives/bar")
          else none)).2 = true := by
  constructor
  · have h := (claim8_alternatives "/opt/env" "usr/bin" "foo" "/etc/alternatives/foo"
      (fun q => if q = "usr/bin/foo" then some (Entry.symlink "/etc/alternatives/foo")
        else if q = "usr/bin/foo-2.7" then some Entry.file else none)
      (by decide) (by decide)).1 (by decide)
    have h1 := h.1
    rw [show pjoin "usr/bin" "foo" = "usr/bin/foo" from by decide,
      show pjoin (pjoin "/opt/env" "usr/bin") ("foo" ++ "-2.7") = "/opt/env/usr/bin/foo-2.7"
        from by decide] at h1
    exact h1
  · exact ((claim8_alternatives "/opt/env" "usr/bin" "bar" "/etc/alternatives/bar"
      (fun q => if q = "usr/bin/bar" then some (Entry.symlink "/etc/alternatives/bar")
        else none)
      (by decide) (by decide)).2 (by decide)).2

theorem splitNl_ne_nil (c : List Char) : splitNl c ≠ [] := by
  cases c with
  | nil => simp [splitNl]
  | cons a as =>
    simp only [splitNl]
    cases h : splitNl as with
    | nil => simp
    | cons s ss => by_cases ha : a = '\n' <;> simp [ha]

theorem splitNl_no_newline (c : List Char) : ∀ s ∈ splitNl c, '\n' ∉ s := by
  induction c with
  | nil =>
    intro s hs
    simp only [splitNl, List.mem_singleton] at hs
    simp [hs]
  | cons a as ih =>
    intro s hs
    simp only [splitNl] at hs
    split at hs
    · simp only [List.mem_singleton] at hs
      simp [hs]
    · rename_i t ts heq
      by_cases ha : a = '\n'
      · rw [if_pos ha] at hs
        rcases List.mem_cons.mp hs with rfl | hs'
        · simp
        · exact ih s (by rw [heq]; exact hs')
      · rw [if_neg ha] at hs
        rcases List.mem_cons.mp hs with rfl | hs'
        · intro hm
          rcases List.mem_cons.mp hm with he | hm'
          · exact ha he.symm
          · exact ih t (by rw [heq]; exact List.mem_cons_self t ts) hm'
        · exact ih s (by rw [heq]; exact List.mem_cons_of_mem t hs')

theorem splitNl_single (s : List Char) (h : '\n' ∉ s) : splitNl s = [s] := by
  induction s with
  | nil => rfl
  | cons a as ih =>
    have ha : a ≠ '\n' := fun hh => h (by simp [hh])
    have ih' := ih (fun hm => h (List.mem_cons_of_mem _ hm))
    simp [splitNl, ih', ha]

theorem splitNl_append (s r : List Char) (h : '\n' ∉ s) :
    splitNl (s ++ '\n' :: r) = s :: splitNl r := by
  induction s with
  | nil =>
    simp only [List.nil_append, splitNl]
    cases hr : splitNl r with
    | nil => exact absurd hr (splitNl_ne_nil r)
    | cons t ts => simp
  | cons a as ih =>
    have ha : a ≠ '\n' := fun hh => h (by simp [hh])
    have ih' := ih (fun hm => h (List.mem_cons_of_mem _ hm))
    show splitNl (a :: (as ++ '\n' :: r)) = (a :: as) :: splitNl r
    rw [splitNl, ih']
    simp [ha]

theorem splitNl_joinNl (ss : List (List Char)) (h : ∀ s ∈ ss, '\n' ∉ s)
    (hne : ss ≠ []) : splitNl (joinNl ss) = ss := by
  induction ss with
  | nil => exact absurd rfl hne
  | cons s ts ih =>
    cases ts with
    | nil => exact splitNl_single s (h s (by simp))
    | cons t ts' =>
      rw [show joinNl (s :: t :: ts') = s ++ '\n' :: joinNl (t :: ts') from rfl]
      rw [splitNl_append s _ (h s (by simp))]
      rw [ih (fun u hu => h u (List.mem_cons_of_mem _ hu)) (by simp)]

theorem breakOn_mem (n seg p q : List Char)
    (hb : breakOn n seg = some (p, q)) : ∀ x, x ∈ p ∨ x ∈ q → x ∈ seg := by
  induction seg generalizing p q with
  | nil =>
    simp only [breakOn] at hb
    by_cases hp : isPre n [] = true
    · rw [if_pos hp] at hb
      simp only [Option.some.injEq, Prod.mk.injEq] at hb
      obtain ⟨rfl, rfl⟩ := hb
      rintro x (hx | hx) <;> cases hx
    · rw [if_neg hp] at hb
      cases hb
  | cons c cs ih =>
    simp only [breakOn] at hb
    by_cases hp : isPre n (c :: cs) = true
    · rw [if_pos hp] at hb
      simp only [Option.some.injEq, Prod.mk.injEq] at hb
      obtain ⟨rfl, rfl⟩ := hb
      rintro x (hx | hx)
      · cases hx
      · exact List.drop_subset _ _ hx
    · rw [if_neg hp] at hb
      cases hbb : breakOn n cs with
      | none => rw [hbb] at hb; cases hb
      | some pq =>
        obtain ⟨p', q'⟩ := pq
        rw [hbb] at hb
        simp only [Option.some.injEq, Prod.mk.injEq] at hb
        obtain ⟨rfl, rfl⟩ := hb
        rintro x (hx | hx)
        · rcases List.mem_cons.mp hx with rfl | hx'
          · exact List.mem_cons_self _ _
          · exact List.mem_cons_of_mem _ (ih p' q' hbb x (Or.inl hx'))
        · exact List.mem_cons_of_mem _ (ih p' q' hbb x (Or.inr hx))

theorem quoteSubAux_mem (A repl : List Char) (fuel : Nat) (seg : List Char) (x : Char)
    (hx : x ∈ quoteSubAux A repl fuel seg) : x ∈ seg ∨ x ∈ repl := by
  induction fuel generalizing seg with
  | zero => exact Or.inl hx
  | succ fuel ih =>
    simp only [quoteSubAux] at hx
    split at hx
    · exact Or.inl hx
    · rename_i p q hb
      split at hx
      · exact Or.inl hx
      · rename_i k hl
        simp only [List.append_assoc, List.mem_append] at hx
        rcases hx with hx | hx | hx
        · exact Or.inl (breakOn_mem A seg p q hb x (Or.inl hx))
        · exact Or.inr hx
        · rcases ih _ hx with h | h
          · exact Or.inl (breakOn_mem A seg p q hb x (Or.inr (List.drop_subset _ _ h)))
          · exact Or.inr h

theorem quoteSubAux_shape (A repl : List Char) (fuel : Nat) (seg : List Char) :
    quoteSubAux A repl fuel seg = seg
    ∨ ∃ p t, quoteSubAux A repl fuel seg = p ++ repl ++ t := by
  cases fuel with
  | zero => exact Or.inl rfl
  | succ fuel =>
    simp only [quoteSubAux]
    split
    · exact Or.inl rfl
    · split
      · exact Or.inl rfl
      · exact Or.inr ⟨_, _, rfl⟩

theorem quoteSub_eq_anchor (A repl seg anchor : List Char)
    (hApre : A <+: repl) (hAn : ¬ (A <:+: anchor))
    (h : quoteSub A repl seg = anchor) : seg = anchor := by
  rcases quoteSubAux_shape A repl seg.length seg with hs | ⟨p, t, hs⟩
  · rw [quoteSub] at h
    rw [hs] at h
    exact h
  · exfalso
    rw [quoteSub] at h
    rw [hs] at h
    apply hAn
    obtain ⟨w, hw⟩ := hApre
    refine ⟨p, w ++ t, ?_⟩
    rw [← h, ← hw]
    simp [List.append_assoc]

theorem insert_eq_none_of_no_anchor (c after line : List Char)
    (h : ∀ s ∈ (splitNl c).dropLast, s ≠ after) : _insert c after line = none := by
  have hf : List.findIdx? (fun s => s == after) (splitNl c).dropLast = none :=
    List.findIdx?_eq_none_iff.mpr (fun s hs => by simpa using h s hs)
  simp only [_insert, hf]

theorem fix_activator_none (act : Activator) (c : List Char)
    (hApre : act.replace_head.data <+: act.replace_line.data)
    (hAn : ¬ (act.replace_head.data <:+: act.insert_after.data))
    (hrepl_nl : '\n' ∉ act.replace_line.data)
    (hanchor : ∀ s ∈ (splitNl c).dropLast, s ≠ act.insert_after.data) :
    _fix_activator act c = none := by
  have hsegs : ∀ s ∈ (splitNl c).map
      (quoteSub act.replace_head.data act.replace_line.data), '\n' ∉ s := by
    intro s hs hnl
    obtain ⟨s₀, hs₀, rfl⟩ := List.mem_map.mp hs
    rcases quoteSubAux_mem _ _ _ _ _ hnl with hm | hm
    · exact splitNl_no_newline c s₀ hs₀ hm
    · exact hrepl_nl hm
  have hne : (splitNl c).map
      (quoteSub act.replace_head.data act.replace_line.data) ≠ [] := by
    intro hh
    exact splitNl_ne_nil c (List.map_eq_nil_iff.mp hh)
  rw [_fix_activator, _replace_env]
  apply insert_eq_none_of_no_anchor
  rw [splitNl_joinNl _ hsegs hne]
  intro s hs hseq
  rw [← List.map_dropLast] at hs
  obtain ⟨s₀, hs₀, rfl⟩ := List.mem_map.mp hs
  exact hanchor s₀ hs₀ (quoteSub_eq_anchor _ _ _ _ hApre hAn hseq)

/-- C5: a missing `deactivate nondestructive` anchor line in any of the
three activation scripts makes `_insert` fail (the uncaught `ValueError`,
embedded as `none`), and `_fix_activators` propagates it: the stage never
continues past a missing anchor. -/
theorem claim5_missing_anchor (virtual_env : String) (c₁ c₂ c₃ : List Char)
    (hnl : '\n' ∉ virtual_env.data)
    (h : (∀ s ∈ (splitNl c₁).dropLast, s ≠ "deactivate nondestructive".data)
       ∨ (∀ s ∈ (splitNl c₂).dropLast, s ≠ "deactivate nondestructive".data)
       ∨ (∀ s ∈ (splitNl c₃).dropLast, s ≠ "deactivate nondestructive".data)) :
    _fix_activators virtual_env c₁ c₂ c₃ = none := by
  have hpre : ∀ a b : String, a.data <+: (a ++ virtual_env ++ b).data := by
    intro a b
    refine ⟨virtual_env.data ++ b.data, ?_⟩
    simp [String.data_append, List.append_assoc]
  have hnlrepl : ∀ a b : String, '\n' ∉ a.data → '\n' ∉ b.data →
      '\n' ∉ (a ++ virtual_env ++ b).data := by
    intro a b ha hb hm
    simp only [String.data_append, List.mem_append] at hm
    rcases hm with (hm | hm) | hm
    · exact ha hm
    · exact hnl hm
    · exact hb hm
  have hAn1 : ¬ (("VIRTUAL_ENV=\"" : String).data
      <:+: ("deactivate nondestructive" : String).data) := by decide
  have hAn2 : ¬ (("setenv VIRTUAL_ENV \"" : String).data
      <:+: ("deactivate nondestructive" : String).data) := by decide
  have hAn3 : ¬ (("set -gx VIRTUAL_ENV \"" : String).data
      <:+: ("deactivate nondestructive" : String).data) := by decide
  rcases h with h | h | h
  · have hn := fix_activator_none (activate_action virtual_env) c₁
      (hpre "VIRTUAL_ENV=\"" "\"") hAn1
      (hnlrepl "VIRTUAL_ENV=\"" "\"" (by decide) (by decide)) h
    simp only [_fix_activators, hn]
  · cases hr : _fix_activator (activate_action virtual_env) c₁ with
    | none => simp only [_fix_activators, hr]
    | some a' =>
      have hn := fix_activator_none (activate_csh_action virtual_env) c₂
        (hpre "setenv VIRTUAL_ENV \"" "\"") hAn2
        (hnlrepl "setenv VIRTUAL_ENV \"" "\"" (by decide) (by decide)) h
      simp only [_fix_activators, hr, hn]
  · cases hr : _fix_activator (activate_action virtual_env) c₁ with
    | none => simp only [_fix_activators, hr]
    | some a' =>
      cases hr2 : _fix_activator (activate_csh_action virtual_env) c₂ with
      | none => simp only [_fix_activators, hr, hr2]
      | some b' =>
        have hn := fix_activator_none (activate_fish_action virtual_env) c₃
          (hpre "set -gx VIRTUAL_ENV \"" "\"") hAn3
          (hnlrepl "set -gx VIRTUAL_ENV \"" "\"" (by decide) (by decide)) h
        simp only [_fix_activators, hr, hr2, hn]

/-- C5 witness: the first activator lacks the anchor line, so the whole
stage aborts. -/
theorem claim5_missing_anchor_witness :
    _fix_activators "/opt/env" "VIRTUAL_ENV=\"/x\"\n".data
      "deactivate nondestructive\n".data "deactivate nondestructive\n".data = none := by
  exact claim5_missing_anchor "/opt/env" _ _ _ (by decide) (Or.inl (by decide))

theorem pjoin_data_suffix (a b : String) : ∃ y, (pjoin a b).data = y ++ b.data := by
  simp only [pjoin]
  split
  · exact ⟨[], rfl⟩
  · split
    · exact ⟨a.data, String.data_append a b⟩
    · refine ⟨a.data ++ ['/'], ?_⟩
      rw [String.data_append, String.data_append]

theorem pjoin_no_newline (a b : String) (ha : '\n' ∉ a.data) (hb : '\n' ∉ b.data) :
    '\n' ∉ (pjoin a b).data := by
  simp only [pjoin]
  split
  · exact hb
  · split
    · rw [String.data_append]
      intro hm
      rcases List.mem_append.mp hm with h | h
      · exact ha h
      · exact hb h
    · rw [String.data_append, String.data_append]
      intro hm
      rcases List.mem_append.mp hm with h | h
      · rcases List.mem_append.mp h with h' | h'
        · exact ha h'
        · exact absurd h' (by decide)
      · exact hb h

theorem shebang_data (virtual_env : String) :
    (shebangOf virtual_env).data
      = '#' :: '!' :: (pjoin (pjoin virtual_env "bin") "python2").data := by
  simp only [shebangOf, String.data_append]
  rfl

theorem shebang_no_newline (virtual_env : String) (hnl : '\n' ∉ virtual_env.data) :
    '\n' ∉ (shebangOf virtual_env).data := by
  rw [shebang_data]
  intro hm
  have hP : '\n' ∉ (pjoin (pjoin virtual_env "bin") "python2").data :=
    pjoin_no_newline _ _ (pjoin_no_newline _ _ hnl (by decide)) (by decide)
  simp only [List.mem_cons] at hm
  rcases hm with h | h | h
  · exact absurd h (by decide)
  · exact absurd h (by decide)
  · exact hP h

theorem pstrip_eq_self (l : List Char)
    (hh : ∀ c, l.head? = some c → pyIsSpace c = false)
    (hl : ∀ c, l.reverse.head? = some c → pyIsSpace c = false) :
    pstrip l = l := by
  have h1 : l.dropWhile pyIsSpace = l := by
    cases l with
    | nil => rfl
    | cons a as => rw [List.dropWhile_cons, if_neg (by simp [hh a rfl])]
  have h2 : l.reverse.dropWhile pyIsSpace = l.reverse := by
    cases hr : l.reverse with
    | nil => rfl
    | cons a as =>
      rw [List.dropWhile_cons, if_neg (by simp [hl a (by rw [hr]; rfl)])]
  rw [pstrip, h1, h2, List.reverse_reverse]

theorem shebang_pstrip (virtual_env : String) :
    pstrip (shebangOf virtual_env).data = (shebangOf virtual_env).data := by
  obtain ⟨y, hy⟩ := pjoin_data_suffix (pjoin virtual_env "bin") "python2"
  apply pstrip_eq_self
  · intro c hc
    rw [shebang_data] at hc
    injection hc with hc'
    rw [← hc']
    decide
  · intro c hc
    rw [shebang_data, hy] at hc
    rw [show ('#' :: '!' :: (y ++ ("python2" : String).data)).reverse
        = ('2' :: "nohtyp".data) ++ (y.reverse ++ ['!', '#']) from by
      simp [List.reverse_append]] at hc
    injection hc with hc'
    rw [← hc']
    decide

theorem shebang_isPre (virtual_env : String) :
    isPre "#!".data (shebangOf virtual_env).data = true := by
  rw [shebang_data]
  simp [isPre]

theorem shebang_isInf (virtual_env : String) :
    isInf "python".data (shebangOf virtual_env).data = true := by
  rw [isInf_iff]
  obtain ⟨y, hy⟩ := pjoin_data_suffix (pjoin virtual_env "bin") "python2"
  rw [shebang_data, hy]
  refine ⟨'#' :: '!' :: y, ['2'], ?_⟩
  have hp2 : ("python" : String).data ++ ['2'] = ("python2" : String).data := by decide
  simp only [List.cons_append, List.append_assoc, List.nil_append]

theorem shebang_metaFree (virtual_env : String)
    (hm : metaFree virtual_env.data = true) :
    metaFree (shebangOf virtual_env).data = true := by
  rw [shebang_data]
  have hP : metaFree (pjoin (pjoin virtual_env "bin") "python2").data = true :=
    metaFree_pjoin _ _ (metaFree_pjoin _ _ hm (by decide)) (by decide)
  simp only [metaFree, List.all_cons] at hP ⊢
  rw [hP]
  decide

theorem shebang_ne_nil (virtual_env : String) : (shebangOf virtual_env).data ≠ [] := by
  rw [shebang_data]
  exact List.cons_ne_nil _ _

theorem fix_relocation_file_fixpoint (virtual_env : String) (rest : List Char)
    (hnl : '\n' ∉ virtual_env.data)
    (hmetaEnv : metaFree virtual_env.data = true) :
    _fix_relocation_file virtual_env ((shebangOf virtual_env).data ++ '\n' :: rest)
      = (shebangOf virtual_env).data ++ '\n' :: rest := by
  have hcompS : pyCompile (shebangOf virtual_env).data
      = some (litRe (shebangOf virtual_env).data) :=
    metaFree_pyCompile _ (shebang_metaFree virtual_env hmetaEnv)
  have hfl : firstLine ((shebangOf virtual_env).data ++ '\n' :: rest)
      = (shebangOf virtual_env).data :=
    firstLine_append _ _ (shebang_no_newline virtual_env hnl)
  have hline : pstrip (firstLine ((shebangOf virtual_env).data ++ '\n' :: rest))
      = (shebangOf virtual_env).data := by
    rw [hfl, shebang_pstrip]
  show (if (isPre "#!".data (pstrip (firstLine ((shebangOf virtual_env).data ++ '\n' :: rest)))
      && isInf "python".data
        (pstrip (firstLine ((shebangOf virtual_env).data ++ '\n' :: rest)))) = true
    then
      match pyCompile (pstrip (firstLine ((shebangOf virtual_env).data ++ '\n' :: rest))) with
      | some r => reSub r (shebangOf virtual_env).data
          ((shebangOf virtual_env).data ++ '\n' :: rest)
      | none => (shebangOf virtual_env).data ++ '\n' :: rest
    else (shebangOf virtual_env).data ++ '\n' :: rest)
    = (shebangOf virtual_env).data ++ '\n' :: rest
  rw [hline]
  rw [if_pos (Bool.and_eq_true_iff.mpr
    ⟨shebang_isPre virtual_env, shebang_isInf virtual_env⟩)]
  rw [hcompS]
  show reSub (litRe (shebangOf virtual_env).data) (shebangOf virtual_env).data
      ((shebangOf virtual_env).data ++ '\n' :: rest)
    = (shebangOf virtual_env).data ++ '\n' :: rest
  rw [reSub_lit _ _ _ (shebang_ne_nil virtual_env)]
  exact rsubAux_self _ _ _

theorem chmod_foldl_untouched (isdir : String → Bool) (l : List (String × Nat))
    (mode : String → Nat) (q : String)
    (h : ∀ e ∈ l, ¬(q = e.1 ∧ isdir e.1 = true)) :
    l.foldl (fun m e => fun q' => if q' = e.1 ∧ isdir e.1 = true then e.2 else m q') mode q
      = mode q := by
  induction l generalizing mode with
  | nil => rfl
  | cons e t ih =>
    rw [List.foldl_cons, ih _ (fun e' he' => h e' (List.mem_cons_of_mem _ he'))]
    exact if_neg (h e (List.mem_cons_self _ _))

theorem chmod_foldl_congr (isdir : String → Bool) (l : List (String × Nat))
    (mode₁ mode₂ : String → Nat)
    (h : ∀ q, (∀ e ∈ l, ¬(q = e.1 ∧ isdir e.1 = true)) → mode₁ q = mode₂ q) :
    l.foldl (fun m e => fun q' => if q' = e.1 ∧ isdir e.1 = true then e.2 else m q') mode₁
      = l.foldl (fun m e => fun q' => if q' = e.1 ∧ isdir e.1 = true then e.2 else m q') mode₂ := by
  induction l generalizing mode₁ mode₂ with
  | nil => funext q; exact h q (by simp)
  | cons e t ih =>
    rw [List.foldl_cons, List.foldl_cons]
    apply ih
    intro q hq
    by_cases hc : q = e.1 ∧ isdir e.1 = true
    · simp only [if_pos hc]
    · simp only [if_neg hc]
      exact h q (List.forall_mem_cons.mpr ⟨hc, hq⟩)

theorem fix_filesystem_idem (dest_dir : String) (isdir : String → Bool)
    (mode : String → Nat) :
    _fix_filesystem dest_dir isdir (_fix_filesystem dest_dir isdir mode)
      = _fix_filesystem dest_dir isdir mode := by
  simp only [_fix_filesystem]
  exact chmod_foldl_congr isdir (chmodList dest_dir) _ mode
    (fun q hq => chmod_foldl_untouched isdir (chmodList dest_dir) mode q hq)

theorem updFS_idem (fs : String → Option Entry) (k : String) (v : Option Entry) :
    updFS (updFS fs k v) k v = updFS fs k v := by
  funext q
  by_cases h : q = k <;> simp [updFS, h]

theorem updFS_ne (fs : String → Option Entry) (k : String) (v : Option Entry)
    (q : String) (h : q ≠ k) : updFS fs k v q = fs q :=
  if_neg h

theorem string_ne_append_27 (s : String) : s ≠ s ++ "-2.7" := by
  intro h
  have hlen := congrArg (fun t : String => t.data.length) h
  simp only [String.data_append, List.length_append] at hlen
  have h4 : ("-2.7" : String).data.length = 4 := by decide
  rw [h4] at hlen
  omega

theorem fix_alternatives_idem (relocated dirpath name : String)
    (fs : String → Option Entry) :
    (_fix_alternatives_link relocated dirpath name
        (_fix_alternatives_link relocated dirpath name fs).1).1
      = (_fix_alternatives_link relocated dirpath name fs).1 := by
  cases h : fs (pjoin dirpath name) with
  | none =>
    have h1 : (_fix_alternatives_link relocated dirpath name fs).1 = fs := by
      simp [_fix_alternatives_link, h]
    rw [h1]
    simp [_fix_alternatives_link, h]
  | some ent =>
    cases ent with
    | file =>
      have h1 : (_fix_alternatives_link relocated dirpath name fs).1 = fs := by
        simp [_fix_alternatives_link, h]
      rw [h1]
      simp [_fix_alternatives_link, h]
    | symlink target =>
      by_cases ht : substr "alternatives" target = true
      · by_cases hex : (fs (pjoin dirpath name ++ "-2.7")).isSome = true
        · have h1 : (_fix_alternatives_link relocated dirpath name fs).1
              = updFS fs (pjoin dirpath name)
                  (some (Entry.symlink (pjoin (pjoin relocated dirpath) (name ++ "-2.7")))) := by
            simp [_fix_alternatives_link, h, ht, hex]
          rw [h1]
          have h2 : updFS fs (pjoin dirpath name)
              (some (Entry.symlink (pjoin (pjoin relocated dirpath) (name ++ "-2.7"))))
              (pjoin dirpath name)
              = some (Entry.symlink (pjoin (pjoin relocated dirpath) (name ++ "-2.7"))) := by
            simp [updFS]
          have h3 : updFS fs (pjoin dirpath name)
              (some (Entry.symlink (pjoin (pjoin relocated dirpath) (name ++ "-2.7"))))
              (pjoin dirpath name ++ "-2.7")
              = fs (pjoin dirpath name ++ "-2.7") :=
            updFS_ne _ _ _ _ (Ne.symm (string_ne_append_27 _))
          by_cases ht2 : substr "alternatives"
              (pjoin (pjoin relocated dirpath) (name ++ "-2.7")) = true
          · simp only [_fix_alternatives_link, h2, ht2, if_true, h3, hex, updFS_idem]
          · simp [_fix_alternatives_link, h2, ht2]
        · have h1 : (_fix_alternatives_link relocated dirpath name fs).1 = fs := by
            simp [_fix_alternatives_link, h, ht, hex]
          rw [h1]
          simp [_fix_alternatives_link, h, ht, hex]
      · have h1 : (_fix_alternatives_link relocated dirpath name fs).1 = fs := by
          simp [_fix_alternatives_link, h, ht]
        rw [h1]
        simp [_fix_alternatives_link, h, ht]

/-- C2 counterexample: the activation-script stage is not idempotent.  On a
pristine script a first run inserts the `LD_LIBRARY_PATH` export after the
anchor; a second run finds the anchor again and inserts a second copy, so
running the stage twice differs from running it once. -/
theorem claim2_cex :
    _fix_activator (activate_action "/opt/env")
        "VIRTUAL_ENV=\"/x\"\ndeactivate nondestructive\n".data
      = some ("VIRTUAL_ENV=\"/opt/env\"\ndeactivate nondestructive\n" ++
          "export LD_LIBRARY_PATH=\"/opt/env/lib\"\n").data
    ∧ _fix_activator (activate_action "/opt/env")
        ("VIRTUAL_ENV=\"/opt/env\"\ndeactivate nondestructive\n" ++
          "export LD_LIBRARY_PATH=\"/opt/env/lib\"\n").data
      = some ("VIRTUAL_ENV=\"/opt/env\"\ndeactivate nondestructive\n" ++
          "export LD_LIBRARY_PATH=\"/opt/env/lib\"\n" ++
          "export LD_LIBRARY_PATH=\"/opt/env/lib\"\n").data
    ∧ ("VIRTUAL_ENV=\"/opt/env\"\ndeactivate nondestructive\n" ++
          "export LD_LIBRARY_PATH=\"/opt/env/lib\"\n" ++
          "export LD_LIBRARY_PATH=\"/opt/env/lib\"\n").data
      ≠ ("VIRTUAL_ENV=\"/opt/env\"\ndeactivate nondestructive\n" ++
          "export LD_LIBRARY_PATH=\"/opt/env/lib\"\n").data := by
  exact ⟨by decide, by decide, by decide⟩

/-- C2 (amended): stages 1 (permissions), 2 (alternatives, per link) and 3
(shebangs, on well-formed files whose first line and environment path are
free of regex metacharacters) are idempotent, but stages 4 and 5 are
not: a second run of the activation-script stage inserts a duplicate
`LD_LIBRARY_PATH` export line, and a second run of the service-unit stage
prefixes `ExecStart` with the environment path again and renames the file
to `venv-venv-...`. -/
theorem claim2_amended (dest_dir : String) (isdir : String → Bool) (mode : String → Nat)
    (relocated dirpath name : String) (fs : String → Option Entry)
    (virtual_env : String) (line rest : List Char)
    (hnl : '\n' ∉ virtual_env.data)
    (h1 : isPre "#!".data line = true) (h2 : isInf "python".data line = true)
    (h3 : '\n' ∉ line) (h4 : pstrip line = line) (h5 : ¬ (line <:+: rest))
    (hmeta : metaFree line = true)
    (hmetaEnv : metaFree virtual_env.data = true) :
    _fix_filesystem dest_dir isdir (_fix_filesystem dest_dir isdir mode)
      = _fix_filesystem dest_dir isdir mode
    ∧ (_fix_alternatives_link relocated dirpath name
        (_fix_alternatives_link relocated dirpath name fs).1).1
      = (_fix_alternatives_link relocated dirpath name fs).1
    ∧ _fix_relocation_file virtual_env
        (_fix_relocation_file virtual_env (line ++ '\n' :: rest))
      = _fix_relocation_file virtual_env (line ++ '\n' :: rest)
    ∧ (Option.bind
        (_fix_activator (activate_action "/opt/env")
          "VIRTUAL_ENV=\"/x\"\ndeactivate nondestructive\n".data)
        (_fix_activator (activate_action "/opt/env")))
      ≠ _fix_activator (activate_action "/opt/env")
          "VIRTUAL_ENV=\"/x\"\ndeactivate nondestructive\n".data
    ∧ _fix_systemd_service "/opt/env"
        (_fix_systemd_service "/opt/env" ⟨"x.service", 0o444, "ExecStart=/usr/bin/x".data⟩)
      ≠ _fix_systemd_service "/opt/env" ⟨"x.service", 0o444, "ExecStart=/usr/bin/x".data⟩ := by
  refine ⟨fix_filesystem_idem dest_dir isdir mode,
    fix_alternatives_idem relocated dirpath name fs, ?_, ?_, ?_⟩
  · rw [fix_relocation_file_rewrite virtual_env line rest h1 h2 h3 h4 h5 hmeta]
    exact fix_relocation_file_fixpoint virtual_env rest hnl hmetaEnv
  · intro hco
    have h1 := congrArg (fun o => Option.map (fun l => l.length) o) hco
    revert h1
    decide
  · intro hco
    have := congrArg SvcFile.name hco
    revert this
    decide

/-- C2 witness: a concrete instantiation of the idempotent stages. -/
theorem claim2_amended_witness :
    _fix_filesystem "/d" (fun _ => true)
        (_fix_filesystem "/d" (fun _ => true) (fun _ => 0))
      = _fix_filesystem "/d" (fun _ => true) (fun _ => 0)
    ∧ _fix_relocation_file "/opt/env"
        (_fix_relocation_file "/opt/env" ("#!/usr/bin/python".data ++ '\n' :: "print(1)".data))
      = _fix_relocation_file "/opt/env" ("#!/usr/bin/python".data ++ '\n' :: "print(1)".data) := by
  have h := claim2_amended "/d" (fun _ => true) (fun _ => 0) "/r" "usr/bin" "foo"
    (fun _ => none) "/opt/env" "#!/usr/bin/python".data "print(1)".data
    (by decide) (by decide) (by decide) (by decide) (by decide) (by decide)
    (by decide) (by decide)
  exact ⟨h.1, h.2.2.1⟩

end Venvjail
